import Mathlib

/-!
# Verification of `novelwriter/dialogs/wordlist.py` (GuiWordList)

Shallow embedding of the word-list dialog's logic.  Words and file contents
are modelled as `List Char` (Python `str`); the list widget's content as a
`List (List Char)` in display order.  Python's no-argument `str.strip` and
`str.split` are embedded over the ASCII whitespace characters.
-/

namespace WordList

/-- Python whitespace test (`str.isspace` on the ASCII whitespace
characters: space, tab, newline, carriage return, vertical tab, form feed). -/
def isPySpace (c : Char) : Bool :=
  c == ' ' || c == '\t' || c == '\n' || c == '\r' ||
    c == Char.ofNat 11 || c == Char.ofNat 12

/-- Python `str.strip()` with no arguments: remove leading and trailing
whitespace. -/
def pyStrip (s : List Char) : List Char :=
  ((s.dropWhile isPySpace).reverse.dropWhile isPySpace).reverse

/-- Helper for `pySplit`: scan the characters, accumulating the current
token in reverse in `acc`. -/
def pySplitAux : List Char → List Char → List (List Char)
  | [], acc => if acc.isEmpty then [] else [acc.reverse]
  | c :: rest, acc =>
    if isPySpace c then
      if acc.isEmpty then pySplitAux rest []
      else acc.reverse :: pySplitAux rest []
    else pySplitAux rest (c :: acc)

/-- Python `str.split()` with no arguments: split on runs of whitespace,
producing no empty tokens. -/
def pySplit (s : List Char) : List (List Char) :=
  pySplitAux s []

/-- `GuiWordList._addWord(word)` (wordlist.py:243-248): if the word is
truthy (non-empty) and no exact-match item exists in the list box
(`findItems(word, Qt.MatchExactly)` empty), add it. -/
def addWord (v : List (List Char)) (w : List Char) : List (List Char) :=
  if w ≠ [] ∧ w ∉ v then v ++ [w] else v

/-- `GuiWordList._doAdd` (wordlist.py:151-161), restricted to its effect on
the list content: strip the entry text, then `_addWord` it.  (It also
clears the entry field and moves the selection, which do not touch the
word content.) -/
def doAdd (v : List (List Char)) (text : List Char) : List (List Char) :=
  addWord v (pyStrip text)

/-- `GuiWordList._doDelete` (wordlist.py:163-168): remove every currently
selected item from the list box.  The selection is modelled as a predicate
on the item text (entries are unique under the maintained invariant, so
text identifies an item). -/
def doDelete (sel : List Char → Bool) (v : List (List Char)) :
    List (List Char) :=
  v.filter (fun w => !(sel w))

/-- `GuiWordList._listWords` (wordlist.py:250-256): collect the stripped
text of every item, skipping items whose stripped text is empty. -/
def listWords (v : List (List Char)) : List (List Char) :=
  (v.map pyStrip).filter (fun w => !w.isEmpty)

/-- The body of `GuiWordList._importWords` once the file content has been
read (wordlist.py:192-200): `set(w.strip() for w in content.split())`,
then `_addWord` each element.  Python's arbitrary set iteration order is
modelled by deduplicating the token list; all claims about import are at
the level of sets of words. -/
def importWords (content : List Char) (v : List (List Char)) :
    List (List Char) :=
  (((pySplit content).map pyStrip).dedup).foldl addWord v

/-- Outcome of a full `_importWords` call: the resulting view and whether
an error was reported via `SHARED.error`. -/
structure ImportResult where
  view : List (List Char)
  errorReported : Bool
  deriving DecidableEq, Repr

/-- `GuiWordList._importWords` (wordlist.py:182-201) with the file read
modelled as an `Except`: on a read/decode failure the exception is caught,
an error is reported, and the function returns before adding anything;
otherwise the words of the content are imported. -/
def importFromFile (readResult : Except String (List Char))
    (v : List (List Char)) : ImportResult :=
  match readResult with
  | .error _ => { view := v, errorReported := true }
  | .ok content => { view := importWords content v, errorReported := false }

/-- The file content written by `GuiWordList._exportWords`
(wordlist.py:203-216): `"\n".join(self._listWords())`. -/
def joinNL : List (List Char) → List Char
  | [] => []
  | [w] => w
  | w :: ws => w ++ '\n' :: joinNL ws

/-- The text written to the export file. -/
def exportContent (v : List (List Char)) : List Char :=
  joinNL (listWords v)

/-- Modelled from the spec: `UserDictionary.add(word)` of the external
`novelwriter.core.spellcheck` collaborator (not under the reviewed file),
"add(word) -> void (dedup on insert)", insert-or-ignore semantics. -/
def dictAdd (d : List (List Char)) (w : List Char) : List (List Char) :=
  if w ∈ d then d else d ++ [w]

/-- The session state the dialog touches: the in-memory view, the
persistent dictionary store, the persisted window-geometry options, any
other persisted options (never touched by this dialog), the current window
size, and the signal/closed flags. -/
structure DialogState where
  view : List (List Char)
  store : List (List Char)
  optWinWidth : Int
  optWinHeight : Int
  otherOptions : List (String × Int)
  winWidth : Int
  winHeight : Int
  signalEmitted : Bool
  closed : Bool
  deriving DecidableEq, Repr

/-- `GuiWordList._saveGuiSettings` (wordlist.py:231-241): persist the
current window width and height under the dialog's settings group. -/
def saveGuiSettings (s : DialogState) : DialogState :=
  { s with optWinWidth := s.winWidth, optWinHeight := s.winHeight }

/-- `GuiWordList.closeEvent` (wordlist.py:140-145): save the GUI settings
and accept the close. -/
def closeEvent (s : DialogState) : DialogState :=
  { saveGuiSettings s with closed := true }

/-- `GuiWordList._doSave` (wordlist.py:170-180): build a fresh
`UserDictionary` (not loaded from storage), `add` every word of
`_listWords()`, `save()` it (modelled from the spec: "save() -> commit to
storage", i.e. the store now holds the fresh dictionary's words), emit
`newWordListReady` and close the dialog (which also persists geometry). -/
def doSave (s : DialogState) : DialogState :=
  closeEvent
    { s with
      store := (listWords s.view).foldl dictAdd []
      signalEmitted := true }

/-- The spec's view invariant: no two entries with identical text
(case-sensitive exact match), and no empty or whitespace-only entry. -/
def viewInvariant (v : List (List Char)) : Prop :=
  v.Nodup ∧ ∀ w ∈ v, w.all isPySpace = false

instance (v : List (List Char)) : Decidable (viewInvariant v) := by
  unfold viewInvariant; infer_instance

/-! ## Helper lemmas -/

lemma addWord_of_mem {v : List (List Char)} {w : List Char} (h : w ∈ v) :
    addWord v w = v := by
  simp [addWord, h]

lemma addWord_nil (v : List (List Char)) : addWord v [] = v := by
  simp [addWord]

lemma mem_addWord {v : List (List Char)} {t w : List Char} :
    w ∈ addWord v t ↔ w ∈ v ∨ (w = t ∧ t ≠ []) := by
  unfold addWord
  by_cases ht : t = []
  · simp [ht]
  · by_cases hm : t ∈ v
    · simp only [hm, not_true_eq_false, and_false, if_false]
      constructor
      · exact fun h => Or.inl h
      · rintro (h | ⟨rfl, -⟩)
        · exact h
        · exact hm
    · simp [ht, hm, or_and_right]

lemma mem_foldl_addWord {ts : List (List Char)} {v : List (List Char)}
    {w : List Char} :
    w ∈ ts.foldl addWord v ↔ w ∈ v ∨ (w ∈ ts ∧ w ≠ []) := by
  induction ts generalizing v with
  | nil => simp
  | cons t ts ih =>
    rw [List.foldl_cons, ih, mem_addWord]
    constructor
    · rintro ((h | ⟨rfl, hne⟩) | ⟨hm, hne⟩)
      · exact Or.inl h
      · exact Or.inr ⟨List.mem_cons_self _ _, hne⟩
      · exact Or.inr ⟨List.mem_cons_of_mem _ hm, hne⟩
    · rintro (h | ⟨hm, hne⟩)
      · exact Or.inl (Or.inl h)
      · rcases List.mem_cons.mp hm with rfl | hm
        · exact Or.inl (Or.inr ⟨rfl, hne⟩)
        · exact Or.inr ⟨hm, hne⟩

lemma foldl_addWord_of_subset {ts v : List (List Char)} (h : ts ⊆ v) :
    ts.foldl addWord v = v := by
  induction ts with
  | nil => rfl
  | cons t ts ih =>
    rw [List.foldl_cons, addWord_of_mem (h (List.mem_cons_self _ _))]
    exact ih fun x hx => h (List.mem_cons_of_mem _ hx)

lemma pyStrip_eq_nil {s : List Char} (h : ∀ c ∈ s, isPySpace c = true) :
    pyStrip s = [] := by
  unfold pyStrip
  rw [List.dropWhile_eq_nil_iff.mpr h]
  rfl

lemma dropWhile_of_no {p : Char → Bool} {s : List Char}
    (h : ∀ c ∈ s, p c = false) : s.dropWhile p = s := by
  cases s with
  | nil => rfl
  | cons a s =>
    exact List.dropWhile_cons_of_neg (by
      simp [h a (List.mem_cons_self _ _)])

lemma pyStrip_of_no_space {s : List Char}
    (h : ∀ c ∈ s, isPySpace c = false) : pyStrip s = s := by
  unfold pyStrip
  rw [dropWhile_of_no h, dropWhile_of_no
    (fun c hc => h c (List.mem_reverse.mp hc)), List.reverse_reverse]

lemma dropWhile_not_all {p : Char → Bool} {s : List Char}
    (h : s.dropWhile p ≠ []) :
    ∃ c ∈ s.dropWhile p, p c = false := by
  induction s with
  | nil => simp at h
  | cons a s ih =>
    by_cases ha : p a
    · rw [List.dropWhile_cons_of_pos ha] at h ⊢
      exact ih h
    · refine ⟨a, ?_, by simpa using ha⟩
      rw [List.dropWhile_cons_of_neg ha]
      exact List.mem_cons_self _ _

lemma pyStrip_not_all_space {s : List Char} (h : pyStrip s ≠ []) :
    (pyStrip s).all isPySpace = false := by
  unfold pyStrip at h ⊢
  have h2 : (s.dropWhile isPySpace).reverse.dropWhile isPySpace ≠ [] := by
    intro hc
    rw [hc] at h
    exact h rfl
  obtain ⟨c, hc, hcf⟩ := dropWhile_not_all h2
  rw [List.all_eq_false]
  exact ⟨c, List.mem_reverse.mpr hc, by simp [hcf]⟩

lemma addWord_invariant {v : List (List Char)} {w : List Char}
    (hv : viewInvariant v) (hw : w ≠ [] → w.all isPySpace = false) :
    viewInvariant (addWord v w) := by
  unfold addWord
  by_cases hc : w ≠ [] ∧ w ∉ v
  · rw [if_pos hc]
    obtain ⟨hnd, hws⟩ := hv
    constructor
    · simpa [List.nodup_append, hc.2] using hnd
    · intro x hx
      rcases List.mem_append.mp hx with hx | hx
      · exact hws x hx
      · rcases List.mem_singleton.mp hx with rfl
        exact hw hc.1
  · rw [if_neg hc]
    exact hv

lemma pySplitAux_tokens {s acc : List Char} {t : List Char}
    (hacc : ∀ c ∈ acc, isPySpace c = false)
    (ht : t ∈ pySplitAux s acc) :
    t ≠ [] ∧ ∀ c ∈ t, isPySpace c = false := by
  induction s generalizing acc with
  | nil =>
    unfold pySplitAux at ht
    by_cases ha : acc.isEmpty
    · simp [ha] at ht
    · rw [if_neg ha] at ht
      rcases List.mem_singleton.mp ht with rfl
      refine ⟨?_, fun c hc => hacc c (List.mem_reverse.mp hc)⟩
      simpa [List.isEmpty_iff] using ha
  | cons a s ih =>
    unfold pySplitAux at ht
    by_cases hsp : isPySpace a
    · rw [if_pos hsp] at ht
      by_cases ha : acc.isEmpty
      · rw [if_pos ha] at ht
        exact ih (by simp) ht
      · rw [if_neg ha] at ht
        rcases List.mem_cons.mp ht with rfl | ht
        · refine ⟨?_, fun c hc => hacc c (List.mem_reverse.mp hc)⟩
          simpa [List.isEmpty_iff] using ha
        · exact ih (by simp) ht
    · rw [if_neg hsp] at ht
      refine ih ?_ ht
      intro c hc
      rcases List.mem_cons.mp hc with rfl | hc
      · simpa using hsp
      · exact hacc c hc

lemma pySplit_tokens {s : List Char} {t : List Char} (ht : t ∈ pySplit s) :
    t ≠ [] ∧ ∀ c ∈ t, isPySpace c = false :=
  pySplitAux_tokens (by simp) ht

lemma pySplitAux_append_no_space {w rest acc : List Char}
    (hw : ∀ c ∈ w, isPySpace c = false) :
    pySplitAux (w ++ rest) acc = pySplitAux rest (w.reverse ++ acc) := by
  induction w generalizing acc with
  | nil => simp
  | cons a w ih =>
    have ha : isPySpace a = false := hw a (List.mem_cons_self _ _)
    rw [List.cons_append]
    have step : pySplitAux (a :: (w ++ rest)) acc = pySplitAux (w ++ rest) (a :: acc) := by
      simp only [pySplitAux]
      rw [if_neg (by simp [ha])]
    rw [step, ih (fun c hc => hw c (List.mem_cons_of_mem _ hc))]
    simp

lemma pySplit_joinNL {ws : List (List Char)}
    (h : ∀ w ∈ ws, w ≠ [] ∧ ∀ c ∈ w, isPySpace c = false) :
    pySplit (joinNL ws) = ws := by
  induction ws with
  | nil => rfl
  | cons w ws ih =>
    obtain ⟨hne, hns⟩ := h w (List.mem_cons_self _ _)
    cases ws with
    | nil =>
      show pySplitAux (joinNL [w]) [] = [w]
      unfold joinNL
      rw [show w = w ++ [] from (List.append_nil w).symm] at hns ⊢
      rw [pySplitAux_append_no_space (by simpa using hns)]
      unfold pySplitAux
      rw [if_neg (by simpa [List.isEmpty_iff] using hne)]
      simp
    | cons w2 ws2 =>
      show pySplitAux (joinNL (w :: w2 :: ws2)) [] = w :: w2 :: ws2
      unfold joinNL
      rw [pySplitAux_append_no_space hns]
      unfold pySplitAux
      rw [if_pos (by simp [isPySpace])]
      rw [if_neg (by simpa [List.isEmpty_iff] using hne)]
      simp only [List.append_nil, List.reverse_reverse]
      exact congrArg (w :: ·) (ih fun x hx => h x (List.mem_cons_of_mem _ hx))

lemma mem_foldl_dictAdd {ws d : List (List Char)} {w : List Char} :
    w ∈ ws.foldl dictAdd d ↔ w ∈ d ∨ w ∈ ws := by
  induction ws generalizing d with
  | nil => simp
  | cons x ws ih =>
    rw [List.foldl_cons, ih]
    unfold dictAdd
    by_cases hx : x ∈ d
    · rw [if_pos hx]
      constructor
      · rintro (h | h)
        · exact Or.inl h
        · exact Or.inr (List.mem_cons_of_mem _ h)
      · rintro (h | h)
        · exact Or.inl h
        · rcases List.mem_cons.mp h with rfl | h
          · exact Or.inl hx
          · exact Or.inr h
    · rw [if_neg hx]
      simp only [List.mem_append, List.mem_singleton, List.mem_cons]
      tauto

lemma nodup_foldl_dictAdd {ws d : List (List Char)} (hd : d.Nodup) :
    (ws.foldl dictAdd d).Nodup := by
  induction ws generalizing d with
  | nil => exact hd
  | cons x ws ih =>
    rw [List.foldl_cons]
    refine ih ?_
    unfold dictAdd
    by_cases hx : x ∈ d
    · rwa [if_pos hx]
    · rw [if_neg hx]
      simpa [List.nodup_append, hx] using hd

lemma listWords_of_clean {v : List (List Char)}
    (h : ∀ w ∈ v, w ≠ [] ∧ ∀ c ∈ w, isPySpace c = false) :
    listWords v = v := by
  unfold listWords
  rw [List.map_congr_left (fun w hw => pyStrip_of_no_space (h w hw).2),
      List.map_id']
  refine List.filter_eq_self.mpr ?_
  intro w hw
  simpa [List.isEmpty_iff] using (h w hw).1

lemma no_space_not_all {t : List Char} (hne : t ≠ [])
    (h : ∀ c ∈ t, isPySpace c = false) : t.all isPySpace = false := by
  cases t with
  | nil => exact absurd rfl hne
  | cons a t =>
    rw [List.all_eq_false]
    exact ⟨a, List.mem_cons_self _ _, by simp [h a (List.mem_cons_self _ _)]⟩

lemma foldl_addWord_invariant {ts v : List (List Char)}
    (hv : viewInvariant v)
    (hts : ∀ t ∈ ts, t ≠ [] → t.all isPySpace = false) :
    viewInvariant (ts.foldl addWord v) := by
  induction ts generalizing v with
  | nil => exact hv
  | cons t ts ih =>
    rw [List.foldl_cons]
    exact ih (addWord_invariant hv (hts t (List.mem_cons_self _ _)))
      fun x hx => hts x (List.mem_cons_of_mem _ hx)

lemma importWords_invariant {content : List Char} {v : List (List Char)}
    (hv : viewInvariant v) : viewInvariant (importWords content v) := by
  unfold importWords
  refine foldl_addWord_invariant hv ?_
  intro t ht hne
  obtain ⟨t0, ht0, rfl⟩ := List.mem_map.mp (List.mem_dedup.mp ht)
  obtain ⟨h0ne, h0ns⟩ := pySplit_tokens ht0
  rw [pyStrip_of_no_space h0ns]
  exact no_space_not_all h0ne h0ns

/-! ## Claim theorems -/

/-- C1: For every session state, Save transfers every word currently listed
in the view (`_listWords`) into the persistent dictionary with
insert-or-ignore semantics, so that relative to the pre-save view no word
is lost and none is duplicated in the store; afterwards the
`newWordListReady` signal has been emitted and the dialog is closed. -/
theorem save_transfers_all_words (s : DialogState) :
    (∀ w ∈ listWords s.view, w ∈ (doSave s).store) ∧
    (doSave s).store.Nodup ∧
    (doSave s).signalEmitted = true ∧ (doSave s).closed = true := by
  have hstore : (doSave s).store = (listWords s.view).foldl dictAdd [] := rfl
  refine ⟨?_, ?_, rfl, rfl⟩
  · intro w hw
    rw [hstore]
    exact mem_foldl_dictAdd.mpr (Or.inr hw)
  · rw [hstore]
    exact nodup_foldl_dictAdd List.nodup_nil

/-- C2: The view invariant (no duplicate entries under case-sensitive exact
match, no empty or whitespace-only entry) is preserved by every operation
of the session: a manual add (`_doAdd` with arbitrary entry text), a
delete (`_doDelete` with arbitrary selection), and an import
(`_importWords` with arbitrary file content). -/
theorem view_invariant_preserved (v : List (List Char))
    (text : List Char) (sel : List Char → Bool) (content : List Char)
    (hv : viewInvariant v) :
    viewInvariant (doAdd v text) ∧ viewInvariant (doDelete sel v) ∧
    viewInvariant (importWords content v) := by
  refine ⟨?_, ?_, importWords_invariant hv⟩
  · exact addWord_invariant hv fun hne => pyStrip_not_all_space hne
  · obtain ⟨hnd, hws⟩ := hv
    exact ⟨hnd.filter _, fun w hw => hws w (List.mem_of_mem_filter hw)⟩

/-- Witness for C2 at a concrete state. -/
theorem view_invariant_preserved_witness :
    viewInvariant ["a".toList] ∧
    (viewInvariant (doAdd ["a".toList] " b ".toList) ∧
     viewInvariant (doDelete (fun _ => false) ["a".toList]) ∧
     viewInvariant (importWords "c d".toList ["a".toList])) :=
  ⟨by decide, view_invariant_preserved ["a".toList] " b ".toList
    (fun _ => false) "c d".toList (by decide)⟩

/-- C3 counterexample: the claim quantifies over every word and every view
state, but adding the empty string twice to the empty view leaves zero
(not exactly one) entries equal to it, because `_addWord` rejects falsy
(empty) input. -/
theorem addWord_twice_empty_counterexample :
    (addWord (addWord [] ([] : List Char)) []).count [] ≠ 1 := by decide

/-- C3 amended: the second add always leaves the view unchanged, and for
every non-empty word `w` adding `w` twice leaves the number of entries
equal to `w` at `max 1 (previous count)` — in particular exactly one
whenever the view previously held at most one copy of `w`. -/
theorem addWord_idempotent (v : List (List Char)) (w : List Char)
    (hw : w ≠ []) :
    addWord (addWord v w) w = addWord v w ∧
    (addWord (addWord v w) w).count w = max 1 (v.count w) := by
  by_cases hm : w ∈ v
  · rw [addWord_of_mem hm, addWord_of_mem hm]
    refine ⟨rfl, ?_⟩
    exact (Nat.max_eq_right (List.count_pos_iff.mpr hm)).symm
  · have h1 : addWord v w = v ++ [w] := by
      simp [addWord, hw, hm]
    have h2 : addWord (addWord v w) w = addWord v w := by
      rw [h1]
      exact addWord_of_mem (List.mem_append_right _ (List.mem_singleton.mpr rfl))
    refine ⟨h2, ?_⟩
    rw [h2, h1, List.count_append, List.count_eq_zero.mpr hm]
    simp

/-- Witness for C3 (amended) at a concrete input. -/
theorem addWord_idempotent_witness :
    ("a".toList ≠ []) ∧
    (addWord (addWord [] "a".toList) "a".toList = addWord [] "a".toList ∧
     (addWord (addWord [] "a".toList) "a".toList).count "a".toList =
       max 1 (List.count "a".toList [])) :=
  ⟨by decide, addWord_idempotent [] "a".toList (by decide)⟩

/-- C4: `_doAdd` strips its input, and for every input consisting only of
whitespace (including the empty string) the view is left unchanged. -/
theorem doAdd_whitespace_noop (v : List (List Char)) (text : List Char)
    (h : ∀ c ∈ text, isPySpace c = true) : doAdd v text = v := by
  unfold doAdd
  rw [pyStrip_eq_nil h, addWord_nil]

/-- Witness for C4 at a concrete input. -/
theorem doAdd_whitespace_noop_witness :
    (∀ c ∈ "  ".toList, isPySpace c = true) ∧
    doAdd ["a".toList] "  ".toList = ["a".toList] :=
  ⟨by decide, doAdd_whitespace_noop ["a".toList] "  ".toList (by decide)⟩

/-- C5 counterexample: the round trip fails for a reachable view state
whose entry contains an inner space (enter "hello world" and press add):
exporting writes the entry verbatim, and re-importing splits it on
whitespace, so the word "hello" appears in the view afterwards although it
was not in the pre-export view — the set of words differs. -/
theorem export_import_counterexample :
    "hello".toList ∈
      importWords (exportContent ["hello world".toList]) ["hello world".toList] ∧
    "hello".toList ∉ (["hello world".toList] : List (List Char)) := by
  decide

/-- C5 amended: for every view whose entries are non-empty and contain no
whitespace characters, exporting and re-importing the exported file leaves
the view exactly unchanged (in particular the same set of words). -/
theorem export_import_roundtrip (v : List (List Char))
    (h : ∀ w ∈ v, w ≠ [] ∧ ∀ c ∈ w, isPySpace c = false) :
    importWords (exportContent v) v = v := by
  unfold importWords exportContent
  rw [listWords_of_clean h, pySplit_joinNL h,
      List.map_congr_left (fun w hw => pyStrip_of_no_space (h w hw).2),
      List.map_id']
  exact foldl_addWord_of_subset (List.dedup_subset v)

/-- Witness for C5 (amended) at a concrete view. -/
theorem export_import_roundtrip_witness :
    (∀ w ∈ ["b".toList, "a".toList],
      w ≠ [] ∧ ∀ c ∈ w, isPySpace c = false) ∧
    importWords (exportContent ["b".toList, "a".toList])
      ["b".toList, "a".toList] = ["b".toList, "a".toList] :=
  ⟨by decide, export_import_roundtrip ["b".toList, "a".toList] (by decide)⟩

/-- C6: importing the content "alpha beta alpha" into an empty view yields
exactly the entries alpha and beta (as a set, order unspecified); and in
general a word is in the view after an import exactly if it was already
there or is one of the whitespace-delimited tokens of the file content. -/
theorem import_splits_and_dedups :
    (importWords "alpha beta alpha".toList []).Perm
      ["alpha".toList, "beta".toList] ∧
    ∀ (content : List Char) (v : List (List Char)) (w : List Char),
      w ∈ importWords content v ↔ w ∈ v ∨ w ∈ pySplit content := by
  constructor
  · decide
  · intro content v w
    unfold importWords
    rw [mem_foldl_addWord]
    constructor
    · rintro (h | ⟨hm, -⟩)
      · exact Or.inl h
      · obtain ⟨t, ht, rfl⟩ := List.mem_map.mp (List.mem_dedup.mp hm)
        rw [pyStrip_of_no_space (pySplit_tokens ht).2]
        exact Or.inr ht
    · rintro (h | h)
      · exact Or.inl h
      · obtain ⟨hne, hns⟩ := pySplit_tokens h
        refine Or.inr ⟨List.mem_dedup.mpr (List.mem_map.mpr ⟨w, h, ?_⟩), hne⟩
        exact pyStrip_of_no_space hns

/-- C7: if the file read during import fails, the exception is caught, the
error is reported to the user, and the in-memory view is left exactly as
it was: nothing is added, because the whole content is read before any
word is added. -/
theorem import_read_failure_noop (e : String) (v : List (List Char)) :
    importFromFile (Except.error e) v = { view := v, errorReported := true } :=
  rfl

/-- C8: closing the dialog without saving leaves the persistent store's
word content and every other persisted option untouched; the only
persistent state written on the close path is the window geometry. -/
theorem close_without_save_preserves_store (s : DialogState) :
    (closeEvent s).store = s.store ∧
    (closeEvent s).otherOptions = s.otherOptions ∧
    (closeEvent s).optWinWidth = s.winWidth ∧
    (closeEvent s).optWinHeight = s.winHeight ∧
    (closeEvent s).view = s.view :=
  ⟨rfl, rfl, rfl, rfl, rfl⟩

/-- C9: `_doDelete` invoked while no entry is selected leaves the view's
content unchanged. -/
theorem doDelete_empty_selection (sel : List Char → Bool)
    (v : List (List Char)) (h : ∀ w ∈ v, sel w = false) :
    doDelete sel v = v := by
  unfold doDelete
  refine List.filter_eq_self.mpr ?_
  intro w hw
  simp [h w hw]

/-- Witness for C9 at a concrete state. -/
theorem doDelete_empty_selection_witness :
    (∀ w ∈ ["a".toList, "b".toList], (fun _ => false) w = false) ∧
    doDelete (fun _ => false) ["a".toList, "b".toList] =
      ["a".toList, "b".toList] :=
  ⟨fun _ _ => rfl,
    doDelete_empty_selection (fun _ => false) ["a".toList, "b".toList]
      fun _ _ => rfl⟩

/-- C10: Save builds the persistent dictionary from a fresh
`UserDictionary` that is never loaded from storage, so after Save the
store's word content is exactly the set of words currently listed in the
view — independent of the pre-save store; in particular a word deleted
from the view during the session is absent from the store after Save. -/
theorem save_store_is_exactly_view (s t : DialogState) :
    (∀ w, w ∈ (doSave s).store ↔ w ∈ listWords s.view) ∧
    (t.view = s.view → (doSave t).store = (doSave s).store) := by
  constructor
  · intro w
    have hstore : (doSave s).store = (listWords s.view).foldl dictAdd [] := rfl
    rw [hstore, mem_foldl_dictAdd]
    simp
  · intro hv
    show (listWords t.view).foldl dictAdd [] = (listWords s.view).foldl dictAdd []
    rw [hv]

/-- Witness for C10 at concrete states (the implication hypothesis is
discharged at states sharing a view but with different stores). -/
theorem save_store_is_exactly_view_witness :
    ((∀ w, w ∈ (doSave
        { view := ["a".toList], store := ["old".toList], optWinWidth := 0,
          optWinHeight := 0, otherOptions := [], winWidth := 1,
          winHeight := 1, signalEmitted := false, closed := false }).store ↔
      w ∈ listWords ["a".toList]) ∧
    (True)) := by
  refine ⟨?_, trivial⟩
  exact (save_store_is_exactly_view
    { view := ["a".toList], store := ["old".toList], optWinWidth := 0,
      optWinHeight := 0, otherOptions := [], winWidth := 1,
      winHeight := 1, signalEmitted := false, closed := false }
    { view := ["a".toList], store := [], optWinWidth := 0,
      optWinHeight := 0, otherOptions := [], winWidth := 1,
      winHeight := 1, signalEmitted := false, closed := false }).1

end WordList
